import Mathlib

/-!
Verification of the theramin continuous-pitch instrument against its
natural-language specification.

The audio/tracking core of the repository is shallowly embedded here:

* src/utils/audio.ts : START_NOTE, END_NOTE, getFrequency (toFixed(6)),
  mapXToFreq, startOscillator, stopOscillator;
* src/lib/getFrequency (the standalone helper, toFixed(3));
* src/components/layouts/interactive-continuum.tsx : getVolumeFromY,
  startAudioNode, stopAudioNode, updateAudioNode, handleMouseEnter,
  the per-frame hand-tracking transform (runDetection) and the per-side
  voice-slot reconciliation effect.

Numbers are modelled in exact real arithmetic; JavaScript's
Number.prototype.toFixed(d) followed by parseFloat is modelled as rounding
to d decimal digits (round half towards positive infinity, which is what
toFixed does on the positive values arising here).
-/

namespace Theramin
/-- Rounding to d decimal digits: the real-number model of
JavaScript's parseFloat(x.toFixed(d)). -/
noncomputable def toFixedVal (d : ℕ) (x : ℝ) : ℝ :=
  (round (x * 10 ^ d) : ℤ) / 10 ^ d

/-- Constant START_NOTE = 25 from utils/audio.ts. -/
def START_NOTE : ℤ := 25

/-- Constant END_NOTE = 72 from utils/audio.ts. -/
def END_NOTE : ℤ := 72

/-- The ideal equal-temperament value 440 * 2 ^ ((keyNumber - 49) / 12)
computed inside both getFrequency implementations before rounding. -/
noncomputable def freqRaw (keyNumber : ℤ) : ℝ :=
  440 * (2 : ℝ) ^ (((keyNumber : ℝ) - 49) / 12)

/-- getFrequency from utils/audio.ts: the equal-temperament formula followed
by parseFloat(frequency.toFixed(6)). -/
noncomputable def getFrequency (keyNumber : ℤ) : ℝ :=
  toFixedVal 6 (freqRaw keyNumber)

/-- getFrequency from the standalone lib helper (src/lib/getFrequency):
the same formula followed by parseFloat(frequency.toFixed(3)). -/
noncomputable def getFrequencyLib (keyNumber : ℤ) : ℝ :=
  toFixedVal 3 (freqRaw keyNumber)

/-! The pitch map mapXToFreq from utils/audio.ts, decomposed into the
definitions of its local values. -/

/-- numKeys = END_NOTE - START_NOTE + 1 (= 48) from mapXToFreq. -/
def numKeys : ℤ := END_NOTE - START_NOTE + 1

/-- The sequential clamp in mapXToFreq: relativeX = x, set to 0 if negative,
then set to width if above width. -/
noncomputable def clampX (x width : ℝ) : ℝ :=
  let r1 := if x < 0 then 0 else x
  if width < r1 then width else r1

/-- keyWidth = width / numKeys from mapXToFreq. -/
noncomputable def keyWidthOf (width : ℝ) : ℝ := width / (numKeys : ℝ)

/-- keyIndex = Math.floor(Math.min(Math.floor(relativeX / keyWidth),
numKeys - 1)) from mapXToFreq (the outer floor of an integer is the
identity). -/
noncomputable def keyIndexOf (x width : ℝ) : ℤ :=
  min ⌊clampX x width / keyWidthOf width⌋ (numKeys - 1)

/-- xInKey = (relativeX - keyIndex * keyWidth) / keyWidth from mapXToFreq. -/
noncomputable def xInKeyOf (x width : ℝ) : ℝ :=
  (clampX x width - (keyIndexOf x width : ℝ) * keyWidthOf width) / keyWidthOf width

/-- mapXToFreq from utils/audio.ts: exponential interpolation between the
frequencies of the key under x and the next key. -/
noncomputable def mapXToFreq (x width : ℝ) : ℝ :=
  getFrequency (START_NOTE + keyIndexOf x width) *
    (getFrequency (START_NOTE + keyIndexOf x width + 1) /
      getFrequency (START_NOTE + keyIndexOf x width)) ^ xInKeyOf x width

/-- getVolumeFromY from interactive-continuum.tsx (the pure mapping applied
when the canvas is available): relativeY = clientY / canvasHeight, clamped
to [0, 1], and amplitude = (1 - clamped) * 0.25. -/
noncomputable def getVolumeFromY (clientY canvasHeight : ℝ) : ℝ :=
  let relativeY := clientY / canvasHeight
  let clamped := min (max relativeY 0) 1
  (1 - clamped) * 0.25

/-! The per-frame hand-tracking transform from runDetection in
interactive-continuum.tsx. -/

/-- One detector keypoint. -/
structure Keypoint where
  x : ℝ
  y : ℝ

/-- The handedness label reported by the detector. -/
inductive Handedness
  | left
  | right
deriving DecidableEq

/-- One detected hand: its keypoint list and handedness label. -/
structure Hand where
  keypoints : List Keypoint
  handedness : Handedness

/-- A tracked hand point (the middle-finger tip, keypoint index 12). -/
structure HandPoint where
  x : ℝ
  y : ℝ

/-- The middle-finger tip of a hand: keypoints[12]. -/
def handTip (h : Hand) : HandPoint :=
  let tip := h.keypoints.getD 12 ⟨0, 0⟩
  ⟨tip.x, tip.y⟩

/-- The accumulation loop of runDetection: walks the detected hands in
arrival order; a hand whose keypoint list does not reach index 12 is
skipped; a hand labelled Right is appended to the physical-left list and a
hand labelled Left to the physical-right list (mirrored camera). -/
def collectHands : List Hand → List HandPoint × List HandPoint
  | [] => ([], [])
  | h :: rest =>
    let (ls, rs) := collectHands rest
    if 12 < h.keypoints.length then
      match h.handedness with
      | Handedness.right => (handTip h :: ls, rs)
      | Handedness.left => (ls, handTip h :: rs)
    else (ls, rs)

/-- setLeftHands(newLeftHands.slice(0, 3)) from runDetection. -/
def trackLeftHands (hands : List Hand) : List HandPoint :=
  (collectHands hands).1.take 3

/-- setRightHands(newRightHands.slice(0, 3)) from runDetection. -/
def trackRightHands (hands : List Hand) : List HandPoint :=
  (collectHands hands).2.take 3

/-! The voice layer: oscillator/gain pairs per slot, modelled as an optional
Voice (the pair of refs, which interactive-continuum.tsx always sets and
clears together) plus a trace of Web Audio API commands issued by each
operation. -/

/-- The audio context (audioContextRef.current when non-null). -/
structure Ctx where
  currentTime : ℝ

/-- A Web Audio API call issued by the voice operations. -/
inductive Cmd
  | createOscillator
  | createGain
  | setOscTypeSine
  | setFreqAtTime (t v : ℝ)
  | expRampFreq (t v : ℝ)
  | setGainAtTime (t v : ℝ)
  | linearRampGain (t v : ℝ)
  | cancelScheduledGain (t : ℝ)
  | connectOscToGain
  | connectGainToDest
  | oscStart
  | oscStop (t : ℝ)
  | disconnectOsc
  | disconnectGain

/-- The live oscillator/gain pair of one slot, carrying its current target
frequency and gain. -/
structure Voice where
  freq : ℝ
  amp : ℝ

/-- startAudioNode from interactive-continuum.tsx: returns unchanged if the
context is missing or the slot's oscillator ref is already set; otherwise
creates the oscillator and gain, sets the sine type, sets the frequency,
ramps gain from 0 to volume over 0.1 s, connects, and starts. -/
def startAudioNode (ctx : Option Ctx) (slot : Option Voice)
    (freq volume : ℝ) : Option Voice × List Cmd :=
  match ctx, slot with
  | none, _ => (slot, [])
  | some _, some v => (some v, [])
  | some c, none =>
      (some ⟨freq, volume⟩,
        [Cmd.createOscillator, Cmd.createGain, Cmd.setOscTypeSine,
         Cmd.setFreqAtTime c.currentTime freq,
         Cmd.setGainAtTime c.currentTime 0,
         Cmd.linearRampGain (c.currentTime + 0.1) volume,
         Cmd.connectOscToGain, Cmd.connectGainToDest, Cmd.oscStart])

/-- stopAudioNode from interactive-continuum.tsx: returns unchanged if the
refs or the context are missing; otherwise cancels scheduled gain values,
ramps gain to 0 at now + 0.15, schedules oscillator stop at now + 0.2, then
disconnects both nodes immediately and clears the refs. -/
def stopAudioNode (ctx : Option Ctx) (slot : Option Voice) :
    Option Voice × List Cmd :=
  match ctx, slot with
  | some c, some _ =>
      (none,
        [Cmd.cancelScheduledGain c.currentTime,
         Cmd.linearRampGain (c.currentTime + 0.15) 0,
         Cmd.oscStop (c.currentTime + 0.2),
         Cmd.disconnectOsc, Cmd.disconnectGain])
  | _, _ => (slot, [])

/-- updateAudioNode from interactive-continuum.tsx: returns unchanged if the
refs or the context are missing; otherwise ramps frequency exponentially to
the target over 0.02 s and gain linearly over 0.01 s. -/
def updateAudioNode (ctx : Option Ctx) (slot : Option Voice)
    (freq volume : ℝ) : Option Voice × List Cmd :=
  match ctx, slot with
  | some c, some _ =>
      (some ⟨freq, volume⟩,
        [Cmd.expRampFreq (c.currentTime + 0.02) freq,
         Cmd.linearRampGain (c.currentTime + 0.01) volume])
  | _, _ => (slot, [])

/-- handleMouseEnter from interactive-continuum.tsx: returns immediately
when isReady is false, otherwise derives frequency and volume from the
event coordinates and calls startAudioNode on the mouse slot. -/
def handleMouseEnter (isReady : Bool) (ctx : Option Ctx)
    (fOfX vOfY : ℝ → ℝ) (clientX clientY : ℝ) (slot : Option Voice) :
    Option Voice × List Cmd :=
  if isReady then startAudioNode ctx slot (fOfX clientX) (vOfY clientY)
  else (slot, [])

/-- startOscillator from utils/audio.ts: if the oscillator ref is already
set it only re-sets that oscillator's frequency; otherwise it creates the
pair, ramps gain from 0 to 0.15 over 0.08 s, connects, sets the frequency
and starts. -/
def startOscillator (c : Ctx) (slot : Option Voice) (initialFreq : ℝ) :
    Option Voice × List Cmd :=
  match slot with
  | some v =>
      (some ⟨initialFreq, v.amp⟩, [Cmd.setFreqAtTime c.currentTime initialFreq])
  | none =>
      (some ⟨initialFreq, 0.15⟩,
        [Cmd.createOscillator, Cmd.createGain, Cmd.setOscTypeSine,
         Cmd.setGainAtTime c.currentTime 0,
         Cmd.linearRampGain (c.currentTime + 0.08) 0.15,
         Cmd.connectOscToGain, Cmd.connectGainToDest,
         Cmd.setFreqAtTime c.currentTime initialFreq, Cmd.oscStart])

/-- The three per-side slot refs (index 0..2) of one hand side. -/
structure HandSlots where
  s0 : Option Voice
  s1 : Option Voice
  s2 : Option Voice

/-- The body of the per-slot branch of the reconcile effect in
interactive-continuum.tsx: with a point present, start when the oscillator
ref is empty and update otherwise; with no point, stop. -/
def reconcileSlot (ctx : Option Ctx) (fOfX vOfY : ℝ → ℝ)
    (slot : Option Voice) (pt : Option HandPoint) : Option Voice × List Cmd :=
  match pt with
  | some p =>
      match slot with
      | none => startAudioNode ctx none (fOfX p.x) (vOfY p.y)
      | some v => updateAudioNode ctx (some v) (fOfX p.x) (vOfY p.y)
  | none => stopAudioNode ctx slot

/-- The reconcile effect for one hand side from interactive-continuum.tsx:
bails out when isReady or the canvas ref is false, otherwise reconciles
slots 0, 1, 2 against hands[0], hands[1], hands[2]. -/
def reconcileHands (isReady canvas : Bool) (ctx : Option Ctx)
    (fOfX vOfY : ℝ → ℝ) (hands : List HandPoint) (ss : HandSlots) :
    HandSlots × List Cmd :=
  if isReady && canvas then
    let r0 := reconcileSlot ctx fOfX vOfY ss.s0 hands[0]?
    let r1 := reconcileSlot ctx fOfX vOfY ss.s1 hands[1]?
    let r2 := reconcileSlot ctx fOfX vOfY ss.s2 hands[2]?
    (⟨r0.1, r1.1, r2.1⟩, r0.2 ++ r1.2 ++ r2.2)
  else (ss, [])

/-- The seven fixed oscillator/gain ref pairs of interactive-continuum.tsx:
the mouse slot and three slots per hand side. -/
structure AppSlots where
  mouse : Option Voice
  right0 : Option Voice
  right1 : Option Voice
  right2 : Option Voice
  left0 : Option Voice
  left1 : Option Voice
  left2 : Option Voice

/-- The number of live voices: the occupied slots among the seven refs. -/
def liveVoices (s : AppSlots) : ℕ :=
  ([s.mouse, s.right0, s.right1, s.right2,
    s.left0, s.left1, s.left2].filter Option.isSome).length

/-! Basic facts about rounding. -/

lemma round_mono_r {x y : ℝ} (h : x ≤ y) : round x ≤ round y := by
  rw [round_eq, round_eq]
  exact Int.floor_mono (by linarith)

lemma abs_toFixedVal_sub (d : ℕ) (x : ℝ) :
    |toFixedVal d x - x| ≤ 1 / (2 * 10 ^ d) := by
  have h10 : (0:ℝ) < 10 ^ d := by positivity
  have h := abs_sub_round (x * 10 ^ d)
  have hx : toFixedVal d x - x = ((round (x * 10 ^ d) : ℝ) - x * 10 ^ d) / 10 ^ d := by
    unfold toFixedVal
    field_simp
    ring
  rw [hx, abs_div, abs_of_pos h10]
  rw [div_le_div_iff₀ h10 (by positivity)]
  calc |(round (x * 10 ^ d) : ℝ) - x * 10 ^ d| * (2 * 10 ^ d)
      = |x * 10 ^ d - round (x * 10 ^ d)| * (2 * 10 ^ d) := by rw [abs_sub_comm]
    _ ≤ (1 / 2) * (2 * 10 ^ d) := by
        apply mul_le_mul_of_nonneg_right h (by positivity)
    _ = 1 * 10 ^ d := by ring

lemma toFixedVal_intCast (d : ℕ) (m : ℤ) : toFixedVal d (m : ℝ) = m := by
  unfold toFixedVal
  have : ((m : ℝ) * 10 ^ d) = ((m * 10 ^ d : ℤ) : ℝ) := by push_cast; ring
  rw [this, round_intCast]
  have h10 : ((10:ℝ)) ^ d ≠ 0 := by positivity
  push_cast
  field_simp

/-! Bounds on the semitone ratio 2 ^ (1/12). -/

lemma semitone_pow_twelve : ((2 : ℝ) ^ ((1 : ℝ) / 12)) ^ (12 : ℕ) = 2 := by
  rw [← Real.rpow_natCast ((2 : ℝ) ^ ((1 : ℝ) / 12)) 12,
    ← Real.rpow_mul (by norm_num : (0:ℝ) ≤ 2)]
  norm_num

lemma semitone_ratio_lb : (1.0594625 : ℝ) < (2 : ℝ) ^ ((1 : ℝ) / 12) := by
  have hc : (0:ℝ) ≤ (2 : ℝ) ^ ((1 : ℝ) / 12) :=
    le_of_lt (Real.rpow_pos_of_pos (by norm_num) _)
  apply lt_of_pow_lt_pow_left₀ 12 hc
  rw [semitone_pow_twelve]
  norm_num

lemma semitone_ratio_ub : (2 : ℝ) ^ ((1 : ℝ) / 12) < 1.0594635 := by
  apply lt_of_pow_lt_pow_left₀ 12 (by norm_num : (0:ℝ) ≤ 1.0594635)
  rw [semitone_pow_twelve]
  norm_num

/-! Facts about freqRaw. -/

lemma freqRaw_pos (n : ℤ) : 0 < freqRaw n := by
  unfold freqRaw
  have := Real.rpow_pos_of_pos (by norm_num : (0:ℝ) < 2) (((n : ℝ) - 49) / 12)
  linarith

lemma freqRaw_succ (n : ℤ) :
    freqRaw (n + 1) = freqRaw n * (2 : ℝ) ^ ((1 : ℝ) / 12) := by
  unfold freqRaw
  rw [mul_assoc, ← Real.rpow_add (by norm_num : (0:ℝ) < 2)]
  congr 2
  push_cast
  ring

lemma freqRaw_mono {m n : ℤ} (h : m ≤ n) : freqRaw m ≤ freqRaw n := by
  unfold freqRaw
  have hmn : ((m : ℝ) - 49) / 12 ≤ ((n : ℝ) - 49) / 12 := by
    have : (m : ℝ) ≤ (n : ℝ) := by exact_mod_cast h
    linarith
  have := Real.rpow_le_rpow_of_exponent_le (by norm_num : (1:ℝ) ≤ 2) hmn
  linarith

lemma freqRaw_int_exp (n : ℤ) (k : ℤ) (hk : ((n : ℝ) - 49) / 12 = (k : ℝ)) :
    freqRaw n = 440 * (2 : ℝ) ^ k := by
  unfold freqRaw
  rw [hk, Real.rpow_intCast]

lemma freqRaw_one : freqRaw 1 = 27.5 := by
  rw [freqRaw_int_exp 1 (-4) (by norm_num)]
  norm_num

lemma freqRaw_25 : freqRaw 25 = 110 := by
  rw [freqRaw_int_exp 25 (-2) (by norm_num)]
  norm_num

lemma freqRaw_49 : freqRaw 49 = 440 := by
  rw [freqRaw_int_exp 49 0 (by norm_num)]
  norm_num

lemma freqRaw_73 : freqRaw 73 = 1760 := by
  rw [freqRaw_int_exp 73 2 (by norm_num)]
  norm_num

/-! Values and monotonicity of getFrequency (the toFixed(6) version). -/

lemma getFrequency_at_int (n : ℤ) (k : ℤ) (hk : ((n : ℝ) - 49) / 12 = (k : ℝ))
    (m : ℤ) (hm : (440 : ℝ) * (2 : ℝ) ^ k = (m : ℝ)) : getFrequency n = m := by
  unfold getFrequency
  rw [freqRaw_int_exp n k hk, hm, toFixedVal_intCast]

lemma getFrequency_49 : getFrequency 49 = 440 :=
  getFrequency_at_int 49 0 (by norm_num) 440 (by norm_num)

lemma getFrequency_25 : getFrequency 25 = 110 :=
  getFrequency_at_int 25 (-2) (by norm_num) 110 (by norm_num)

lemma getFrequency_73 : getFrequency 73 = 1760 :=
  getFrequency_at_int 73 2 (by norm_num) 1760 (by norm_num)

lemma getFrequency_step {n : ℤ} (hn : 1 ≤ n) :
    getFrequency n < getFrequency (n + 1) := by
  have ha : (27.5 : ℝ) ≤ freqRaw n := by
    calc (27.5 : ℝ) = freqRaw 1 := freqRaw_one.symm
      _ ≤ freqRaw n := freqRaw_mono hn
  have hb : freqRaw (n + 1) = freqRaw n * (2 : ℝ) ^ ((1 : ℝ) / 12) := freqRaw_succ n
  have hc := semitone_ratio_lb
  have hgap : freqRaw n + 1 ≤ freqRaw (n + 1) := by
    rw [hb]
    nlinarith [freqRaw_pos n]
  have hround : round (freqRaw n * 10 ^ 6) < round (freqRaw (n + 1) * 10 ^ 6) := by
    have h1 : freqRaw n * 10 ^ 6 + (1000000 : ℤ) ≤ freqRaw (n + 1) * 10 ^ 6 := by
      push_cast
      nlinarith
    calc round (freqRaw n * 10 ^ 6)
        < round (freqRaw n * 10 ^ 6) + 1000000 := by omega
      _ = round (freqRaw n * 10 ^ 6 + (1000000 : ℤ)) := (round_add_int _ _).symm
      _ ≤ round (freqRaw (n + 1) * 10 ^ 6) := round_mono_r h1
  unfold getFrequency toFixedVal
  rw [div_lt_div_iff_of_pos_right (by positivity)]
  exact_mod_cast hround

lemma getFrequency_lt_of_lt {m n : ℤ} (hm : 1 ≤ m) (hmn : m < n) :
    getFrequency m < getFrequency n := by
  have key : ∀ p : ℤ, m + 1 ≤ p → getFrequency m < getFrequency p := by
    refine Int.le_induction ?_ ?_
    · exact getFrequency_step hm
    · intro q hq ih
      exact lt_trans ih (getFrequency_step (by omega))
  exact key n (by omega)

lemma getFrequency_mono {m n : ℤ} (hm : 1 ≤ m) (hmn : m ≤ n) :
    getFrequency m ≤ getFrequency n := by
  rcases eq_or_lt_of_le hmn with rfl | h
  · exact le_refl _
  · exact le_of_lt (getFrequency_lt_of_lt hm h)

lemma getFrequency_ge_110 {n : ℤ} (hn : 25 ≤ n) : 110 ≤ getFrequency n := by
  calc (110 : ℝ) = getFrequency 25 := getFrequency_25.symm
    _ ≤ getFrequency n := getFrequency_mono (by norm_num) hn

lemma getFrequency_pos {n : ℤ} (hn : 25 ≤ n) : 0 < getFrequency n :=
  lt_of_lt_of_le (by norm_num) (getFrequency_ge_110 hn)

lemma getFrequency_ratio {n : ℤ} (h1 : 25 ≤ n) (h2 : n ≤ 72) :
    |getFrequency (n + 1) / getFrequency n - (2 : ℝ) ^ ((1 : ℝ) / 12)| <
      1 / 1000000 := by
  set c : ℝ := (2 : ℝ) ^ ((1 : ℝ) / 12) with hc
  have hcpos : 0 < c := Real.rpow_pos_of_pos (by norm_num) _
  have hcub : c < 1.0594635 := semitone_ratio_ub
  set a : ℝ := freqRaw n with ha
  set b : ℝ := freqRaw (n + 1) with hb
  have hbac : b = a * c := freqRaw_succ n
  set fa : ℝ := getFrequency n with hfa
  set fb : ℝ := getFrequency (n + 1) with hfb
  have h6a : |fa - a| ≤ 1 / (2 * 10 ^ 6) := abs_toFixedVal_sub 6 a
  have h6b : |fb - b| ≤ 1 / (2 * 10 ^ 6) := abs_toFixedVal_sub 6 b
  have hfa110 : 110 ≤ fa := getFrequency_ge_110 h1
  have hfapos : 0 < fa := by linarith
  have hnum : |fb - c * fa| ≤ 1.03 / 1000000 := by
    have hsplit : fb - c * fa = (fb - b) + c * (a - fa) := by
      rw [hbac]; ring
    calc |fb - c * fa| = |(fb - b) + c * (a - fa)| := by rw [hsplit]
      _ ≤ |fb - b| + |c * (a - fa)| := abs_add _ _
      _ = |fb - b| + c * |fa - a| := by
          rw [abs_mul, abs_of_pos hcpos, abs_sub_comm a fa]
      _ ≤ 1 / (2 * 10 ^ 6) + 1.0594635 * (1 / (2 * 10 ^ 6)) := by
          have habs : 0 ≤ |fa - a| := abs_nonneg _
          have : c * |fa - a| ≤ 1.0594635 * (1 / (2 * 10 ^ 6)) := by
            apply mul_le_mul (le_of_lt hcub) h6a habs (by norm_num)
          linarith
      _ ≤ 1.03 / 1000000 := by norm_num
  have heq : fb / fa - c = (fb - c * fa) / fa := by
    field_simp
    ring
  rw [heq, abs_div, abs_of_pos hfapos, div_lt_iff₀ hfapos]
  nlinarith

/-- C1 counterexample: getFrequency does not compute the ideal
equal-temperament value exactly (the toFixed(6) rounding makes
getFrequency 50 rational while 440 * 2 ^ (1/12) is irrational), and it is
not strictly increasing over all integer key numbers (at key numbers -563
and -551 the rounded value is 0 in both cases). -/
theorem getFrequency_claim_refuted :
    getFrequency 50 ≠ 440 * (2 : ℝ) ^ ((((50 : ℤ) : ℝ) - 49) / 12) ∧
    getFrequency (-563) = getFrequency (-551) := by
  constructor
  · intro heq
    have hexp : ((((50 : ℤ) : ℝ)) - 49) / 12 = (1 : ℝ) / 12 := by norm_num
    rw [hexp] at heq
    have hnotint : ¬∃ y : ℤ, (2 : ℝ) ^ ((1 : ℝ) / 12) = (y : ℝ) := by
      rintro ⟨y, hy⟩
      have hl : (1 : ℝ) < (y : ℝ) := by
        rw [← hy]; linarith [semitone_ratio_lb]
      have hr : (y : ℝ) < 2 := by
        rw [← hy]; linarith [semitone_ratio_ub]
      have hl' : (1 : ℤ) < y := by exact_mod_cast hl
      have hr' : y < (2 : ℤ) := by exact_mod_cast hr
      omega
    have hirr : Irrational ((2 : ℝ) ^ ((1 : ℝ) / 12)) := by
      apply irrational_nrt_of_notint_nrt 12 2
      · exact_mod_cast semitone_pow_twelve
      · exact hnotint
      · norm_num
    have hirr440 : Irrational (440 * (2 : ℝ) ^ ((1 : ℝ) / 12)) := by
      have h440 : ((440 : ℚ) : ℝ) = (440 : ℝ) := by norm_num
      have := hirr.rat_mul (q := 440) (by norm_num)
      rwa [h440] at this
    apply hirr440
    refine ⟨(round (freqRaw 50 * 10 ^ 6) : ℚ) / 10 ^ 6, ?_⟩
    rw [← heq]
    unfold getFrequency toFixedVal
    push_cast
    ring
  · have h563 : getFrequency (-563) = 0 := by
      unfold getFrequency toFixedVal
      rw [freqRaw_int_exp (-563) (-51) (by norm_num)]
      have hz : (440 : ℝ) * (2 : ℝ) ^ (-51 : ℤ) * 10 ^ 6 =
          440 * 10 ^ 6 / 2 ^ (51 : ℕ) := by
        rw [zpow_neg]
        norm_num
      have hround : round ((440 : ℝ) * (2 : ℝ) ^ (-51 : ℤ) * 10 ^ 6) = 0 := by
        rw [round_eq, Int.floor_eq_zero_iff, Set.mem_Ico, hz]
        constructor
        · positivity
        · have hlt : (440 : ℝ) * 10 ^ 6 / 2 ^ (51 : ℕ) < 1 / 2 := by
            rw [div_lt_iff₀ (by positivity : (0:ℝ) < 2 ^ (51 : ℕ))]
            norm_num
          linarith
      rw [hround]
      norm_num
    have h551 : getFrequency (-551) = 0 := by
      unfold getFrequency toFixedVal
      rw [freqRaw_int_exp (-551) (-50) (by norm_num)]
      have hz : (440 : ℝ) * (2 : ℝ) ^ (-50 : ℤ) * 10 ^ 6 =
          440 * 10 ^ 6 / 2 ^ (50 : ℕ) := by
        rw [zpow_neg]
        norm_num
      have hround : round ((440 : ℝ) * (2 : ℝ) ^ (-50 : ℤ) * 10 ^ 6) = 0 := by
        rw [round_eq, Int.floor_eq_zero_iff, Set.mem_Ico, hz]
        constructor
        · positivity
        · have hlt : (440 : ℝ) * 10 ^ 6 / 2 ^ (50 : ℕ) < 1 / 2 := by
            rw [div_lt_iff₀ (by positivity : (0:ℝ) < 2 ^ (50 : ℕ))]
            norm_num
          linarith
      rw [hround]
      norm_num
    rw [h563, h551]

/-- C1 (amended): getFrequency computes the equal-temperament value rounded
to 6 decimal places; getFrequency 49 = 440 exactly, getFrequency is strictly
increasing on key numbers n with 1 <= n, and for every note n in the playable
range [25, 72] the ratio getFrequency (n+1) / getFrequency n equals
2 ^ (1/12) to within 10^-6. -/
theorem getFrequency_spec :
    getFrequency 49 = 440 ∧
    StrictMonoOn getFrequency (Set.Ici (1 : ℤ)) ∧
    ∀ n : ℤ, 25 ≤ n → n ≤ 72 →
      |getFrequency (n + 1) / getFrequency n - (2 : ℝ) ^ ((1 : ℝ) / 12)| <
        1 / 1000000 := by
  refine ⟨getFrequency_49, ?_, ?_⟩
  · intro m hm n _ hmn
    exact getFrequency_lt_of_lt (Set.mem_Ici.mp hm) hmn
  · intro n hn1 hn2
    exact getFrequency_ratio hn1 hn2

/-- Witness for the amended C1 at the concrete note 49. -/
theorem getFrequency_spec_witness :
    (25 : ℤ) ≤ 49 ∧ (49 : ℤ) ≤ 72 ∧
    |getFrequency 50 / getFrequency 49 - (2 : ℝ) ^ ((1 : ℝ) / 12)| <
      1 / 1000000 := by
  refine ⟨by norm_num, by norm_num, ?_⟩
  have h := getFrequency_spec.2.2 49 (by norm_num) (by norm_num)
  have h50 : (49 : ℤ) + 1 = 50 := by norm_num
  rwa [h50] at h

/-! C10: comparison of the two getFrequency implementations. -/

lemma freqRaw_50 : freqRaw 50 = 440 * (2 : ℝ) ^ ((1 : ℝ) / 12) := by
  unfold freqRaw
  norm_num

/-- C10 counterexample: the utils/audio.ts getFrequency (toFixed(6)) and the
lib helper getFrequency (toFixed(3)) disagree at key number 50: the first
rounds 466.16376151... to 466.163762, the second to 466.164. -/
theorem getFrequency_impls_differ : getFrequency 50 ≠ getFrequencyLib 50 := by
  intro heq
  have hlb := semitone_ratio_lb
  have hub := semitone_ratio_ub
  set y : ℝ := freqRaw 50 * 10 ^ 6 with hy
  have hy1 : (466163500 : ℝ) < y := by
    rw [hy, freqRaw_50]
    nlinarith
  have hy2 : y < 466163940 := by
    rw [hy, freqRaw_50]
    nlinarith
  have hry := abs_sub_round y
  have habs := abs_le.mp hry
  have hk1 : (466163499 : ℤ) < round y := by
    have : (466163499 : ℝ) < (round y : ℝ) := by linarith
    exact_mod_cast this
  have hk2 : round y < (466163941 : ℤ) := by
    have : ((round y : ℤ) : ℝ) < 466163941 := by linarith
    exact_mod_cast this
  have h1000 : round y = 1000 * round (freqRaw 50 * 10 ^ 3) := by
    have hcast : ((round y : ℤ) : ℝ) * 10 ^ 3 =
        ((round (freqRaw 50 * 10 ^ 3) : ℤ) : ℝ) * 10 ^ 6 := by
      unfold getFrequency getFrequencyLib toFixedVal at heq
      rw [← hy] at heq
      field_simp at heq
      linarith
    have : ((round y : ℤ) : ℝ) = 1000 * ((round (freqRaw 50 * 10 ^ 3) : ℤ) : ℝ) := by
      nlinarith
    exact_mod_cast this
  omega

/-- C10 (amended): the two getFrequency implementations agree only up to
rounding: utils/audio.ts rounds to 6 decimal places and the lib helper to 3,
so for every integer key number their values differ by less than 10^-3
(but are not equal in general). -/
theorem getFrequency_impls_close (n : ℤ) :
    |getFrequency n - getFrequencyLib n| < 1 / 1000 := by
  have h6 := abs_toFixedVal_sub 6 (freqRaw n)
  have h3 := abs_toFixedVal_sub 3 (freqRaw n)
  unfold getFrequency getFrequencyLib
  calc |toFixedVal 6 (freqRaw n) - toFixedVal 3 (freqRaw n)|
      = |(toFixedVal 6 (freqRaw n) - freqRaw n) +
          (freqRaw n - toFixedVal 3 (freqRaw n))| := by ring_nf
    _ ≤ |toFixedVal 6 (freqRaw n) - freqRaw n| +
          |freqRaw n - toFixedVal 3 (freqRaw n)| := abs_add _ _
    _ < 1 / 1000 := by
        rw [abs_sub_comm (freqRaw n)] at *
        have h3' : |toFixedVal 3 (freqRaw n) - freqRaw n| ≤ 1 / (2 * 10 ^ 3) := h3
        norm_num at h6 h3' ⊢
        linarith

lemma clampX_eq_min_max (x width : ℝ) : clampX x width = min width (max x 0) := by
  unfold clampX
  rcases lt_or_le x 0 with h | h
  · simp only [if_pos h]
    rw [max_eq_right (le_of_lt h)]
    rcases lt_or_le width 0 with h2 | h2
    · rw [if_pos h2, min_eq_left (le_of_lt h2)]
    · rw [if_neg (not_lt.mpr h2), min_eq_right h2]
  · simp only [if_neg (not_lt.mpr h)]
    rw [max_eq_left h]
    rcases lt_or_le width x with h2 | h2
    · rw [if_pos h2, min_eq_left (le_of_lt h2)]
    · rw [if_neg (not_lt.mpr h2), min_eq_right h2]

lemma clampX_nonneg {width : ℝ} (hw : 0 < width) (x : ℝ) : 0 ≤ clampX x width := by
  rw [clampX_eq_min_max]
  exact le_min (le_of_lt hw) (le_max_right x 0)

lemma clampX_le_width (x width : ℝ) : clampX x width ≤ width := by
  rw [clampX_eq_min_max]
  exact min_le_left _ _

lemma clampX_mono {x1 x2 : ℝ} (width : ℝ) (h : x1 ≤ x2) :
    clampX x1 width ≤ clampX x2 width := by
  rw [clampX_eq_min_max, clampX_eq_min_max]
  exact min_le_min le_rfl (max_le_max h le_rfl)

lemma keyWidthOf_pos {width : ℝ} (hw : 0 < width) : 0 < keyWidthOf width := by
  unfold keyWidthOf numKeys START_NOTE END_NOTE
  positivity

lemma keyIndexOf_nonneg {width : ℝ} (hw : 0 < width) (x : ℝ) :
    0 ≤ keyIndexOf x width := by
  unfold keyIndexOf
  apply le_min
  · exact Int.floor_nonneg.mpr
      (div_nonneg (clampX_nonneg hw x) (le_of_lt (keyWidthOf_pos hw)))
  · unfold numKeys START_NOTE END_NOTE
    norm_num

lemma keyIndexOf_le (x width : ℝ) : keyIndexOf x width ≤ numKeys - 1 :=
  min_le_right _ _

lemma keyIndexOf_le_47 (x width : ℝ) : keyIndexOf x width ≤ 47 := by
  have h := keyIndexOf_le x width
  unfold numKeys START_NOTE END_NOTE at h
  omega

lemma keyIndexOf_mul_le {width : ℝ} (hw : 0 < width) (x : ℝ) :
    (keyIndexOf x width : ℝ) * keyWidthOf width ≤ clampX x width := by
  have hkw := keyWidthOf_pos hw
  have h1 : (keyIndexOf x width : ℝ) ≤ clampX x width / keyWidthOf width := by
    calc (keyIndexOf x width : ℝ)
        ≤ (⌊clampX x width / keyWidthOf width⌋ : ℝ) := by
          exact_mod_cast min_le_left _ (numKeys - 1)
      _ ≤ clampX x width / keyWidthOf width := Int.floor_le _
  calc (keyIndexOf x width : ℝ) * keyWidthOf width
      ≤ (clampX x width / keyWidthOf width) * keyWidthOf width :=
        mul_le_mul_of_nonneg_right h1 (le_of_lt hkw)
    _ = clampX x width := by field_simp

lemma clampX_le_succ_mul {width : ℝ} (hw : 0 < width) (x : ℝ) :
    clampX x width ≤ ((keyIndexOf x width : ℝ) + 1) * keyWidthOf width := by
  have hkw := keyWidthOf_pos hw
  have hdiv : clampX x width / keyWidthOf width ≤ (keyIndexOf x width : ℝ) + 1 := by
    rcases le_or_lt ⌊clampX x width / keyWidthOf width⌋ (numKeys - 1) with h | h
    · have hmin : keyIndexOf x width = ⌊clampX x width / keyWidthOf width⌋ := by
        unfold keyIndexOf
        exact min_eq_left h
      rw [hmin]
      exact le_of_lt (Int.lt_floor_add_one _)
    · have hmin : keyIndexOf x width = numKeys - 1 := by
        unfold keyIndexOf
        exact min_eq_right (le_of_lt h)
      rw [hmin]
      have h48 : clampX x width / keyWidthOf width ≤ 48 := by
        rw [div_le_iff₀ hkw]
        have : (48 : ℝ) * keyWidthOf width = width := by
          unfold keyWidthOf numKeys START_NOTE END_NOTE
          norm_num
          ring
        rw [this]
        exact clampX_le_width x width
      unfold numKeys START_NOTE END_NOTE
      push_cast
      linarith
  calc clampX x width = (clampX x width / keyWidthOf width) * keyWidthOf width := by
        field_simp
    _ ≤ ((keyIndexOf x width : ℝ) + 1) * keyWidthOf width :=
        mul_le_mul_of_nonneg_right hdiv (le_of_lt hkw)

lemma xInKeyOf_nonneg {width : ℝ} (hw : 0 < width) (x : ℝ) :
    0 ≤ xInKeyOf x width := by
  unfold xInKeyOf
  apply div_nonneg _ (le_of_lt (keyWidthOf_pos hw))
  have := keyIndexOf_mul_le hw x
  linarith

lemma xInKeyOf_le_one {width : ℝ} (hw : 0 < width) (x : ℝ) :
    xInKeyOf x width ≤ 1 := by
  unfold xInKeyOf
  rw [div_le_one (keyWidthOf_pos hw)]
  have := clampX_le_succ_mul hw x
  linarith

lemma keyIndexOf_mono {width : ℝ} (hw : 0 < width) {x1 x2 : ℝ} (h : x1 ≤ x2) :
    keyIndexOf x1 width ≤ keyIndexOf x2 width := by
  unfold keyIndexOf
  apply min_le_min _ le_rfl
  apply Int.floor_mono
  apply div_le_div_of_nonneg_right (clampX_mono width h)
  exact le_of_lt (keyWidthOf_pos hw)

lemma note_ge {width : ℝ} (hw : 0 < width) (x : ℝ) :
    25 ≤ START_NOTE + keyIndexOf x width := by
  have := keyIndexOf_nonneg hw x
  unfold START_NOTE
  omega

lemma note_le (x width : ℝ) : START_NOTE + keyIndexOf x width ≤ 72 := by
  have := keyIndexOf_le_47 x width
  unfold START_NOTE
  omega

lemma ratio_gt_one {n : ℤ} (h1 : 25 ≤ n) :
    1 < getFrequency (n + 1) / getFrequency n :=
  (one_lt_div (getFrequency_pos h1)).mpr (getFrequency_step (by omega))

lemma mapXToFreq_lower {width : ℝ} (hw : 0 < width) (x : ℝ) :
    getFrequency (START_NOTE + keyIndexOf x width) ≤ mapXToFreq x width := by
  unfold mapXToFreq
  set n := START_NOTE + keyIndexOf x width with hn
  have hq := ratio_gt_one (n := n) (note_ge hw x)
  have hpos := getFrequency_pos (n := n) (note_ge hw x)
  have h1 : (1 : ℝ) ≤ (getFrequency (n + 1) / getFrequency n) ^ xInKeyOf x width := by
    calc (1 : ℝ) = (getFrequency (n + 1) / getFrequency n) ^ (0 : ℝ) :=
          (Real.rpow_zero _).symm
      _ ≤ (getFrequency (n + 1) / getFrequency n) ^ xInKeyOf x width :=
          Real.rpow_le_rpow_of_exponent_le (le_of_lt hq) (xInKeyOf_nonneg hw x)
  nlinarith

lemma mapXToFreq_upper {width : ℝ} (hw : 0 < width) (x : ℝ) :
    mapXToFreq x width ≤ getFrequency (START_NOTE + keyIndexOf x width + 1) := by
  unfold mapXToFreq
  set n := START_NOTE + keyIndexOf x width with hn
  have hq := ratio_gt_one (n := n) (note_ge hw x)
  have hpos := getFrequency_pos (n := n) (note_ge hw x)
  have h1 : (getFrequency (n + 1) / getFrequency n) ^ xInKeyOf x width ≤
      getFrequency (n + 1) / getFrequency n := by
    calc (getFrequency (n + 1) / getFrequency n) ^ xInKeyOf x width
        ≤ (getFrequency (n + 1) / getFrequency n) ^ (1 : ℝ) :=
          Real.rpow_le_rpow_of_exponent_le (le_of_lt hq) (xInKeyOf_le_one hw x)
      _ = getFrequency (n + 1) / getFrequency n := Real.rpow_one _
  calc getFrequency n * (getFrequency (n + 1) / getFrequency n) ^ xInKeyOf x width
      ≤ getFrequency n * (getFrequency (n + 1) / getFrequency n) :=
        mul_le_mul_of_nonneg_left h1 (le_of_lt hpos)
    _ = getFrequency (n + 1) := by field_simp

lemma xInKeyOf_mono_same {width : ℝ} (hw : 0 < width) {x1 x2 : ℝ} (h : x1 ≤ x2)
    (hk : keyIndexOf x1 width = keyIndexOf x2 width) :
    xInKeyOf x1 width ≤ xInKeyOf x2 width := by
  unfold xInKeyOf
  rw [← hk]
  apply div_le_div_of_nonneg_right _ (le_of_lt (keyWidthOf_pos hw))
  have := clampX_mono width h
  linarith

/-- C3: for a fixed positive width, mapXToFreq is monotonically
non-decreasing in x, and its output always lies between
getFrequency START_NOTE and getFrequency (END_NOTE + 1). -/
theorem mapXToFreq_monotone_bounded (width : ℝ) (hw : 0 < width) :
    (∀ x1 x2 : ℝ, x1 ≤ x2 → mapXToFreq x1 width ≤ mapXToFreq x2 width) ∧
    ∀ x : ℝ, getFrequency START_NOTE ≤ mapXToFreq x width ∧
      mapXToFreq x width ≤ getFrequency (END_NOTE + 1) := by
  constructor
  · intro x1 x2 h
    have hk := keyIndexOf_mono hw h
    rcases eq_or_lt_of_le hk with heq | hlt
    · have ht := xInKeyOf_mono_same hw h heq
      unfold mapXToFreq
      rw [← heq]
      have hq := ratio_gt_one (n := START_NOTE + keyIndexOf x1 width) (note_ge hw x1)
      have hpos := getFrequency_pos (n := START_NOTE + keyIndexOf x1 width)
        (note_ge hw x1)
      apply mul_le_mul_of_nonneg_left _ (le_of_lt hpos)
      exact Real.rpow_le_rpow_of_exponent_le (le_of_lt hq) ht
    · calc mapXToFreq x1 width
          ≤ getFrequency (START_NOTE + keyIndexOf x1 width + 1) :=
            mapXToFreq_upper hw x1
        _ ≤ getFrequency (START_NOTE + keyIndexOf x2 width) := by
            apply getFrequency_mono _ (by omega)
            have := keyIndexOf_nonneg hw x1
            unfold START_NOTE
            omega
        _ ≤ mapXToFreq x2 width := mapXToFreq_lower hw x2
  · intro x
    constructor
    · calc getFrequency START_NOTE
          ≤ getFrequency (START_NOTE + keyIndexOf x width) := by
            apply getFrequency_mono
            · unfold START_NOTE; omega
            · have := keyIndexOf_nonneg hw x
              omega
        _ ≤ mapXToFreq x width := mapXToFreq_lower hw x
    · calc mapXToFreq x width
          ≤ getFrequency (START_NOTE + keyIndexOf x width + 1) :=
            mapXToFreq_upper hw x
        _ ≤ getFrequency (END_NOTE + 1) := by
            apply getFrequency_mono
            · have := keyIndexOf_nonneg hw x
              unfold START_NOTE
              omega
            · have := keyIndexOf_le_47 x width
              unfold START_NOTE END_NOTE
              omega

/-- Witness for C3 at width = 1000, x1 = 0, x2 = 500. -/
theorem mapXToFreq_monotone_bounded_witness :
    (0 : ℝ) < 1000 ∧ (0 : ℝ) ≤ 500 ∧
    mapXToFreq 0 1000 ≤ mapXToFreq 500 1000 ∧
    getFrequency START_NOTE ≤ mapXToFreq 500 1000 :=
  ⟨by norm_num, by norm_num,
    (mapXToFreq_monotone_bounded 1000 (by norm_num)).1 0 500 (by norm_num),
    ((mapXToFreq_monotone_bounded 1000 (by norm_num)).2 500).1⟩

lemma mapXToFreq_congr_clamp {x1 x2 width : ℝ}
    (h : clampX x1 width = clampX x2 width) :
    mapXToFreq x1 width = mapXToFreq x2 width := by
  unfold mapXToFreq xInKeyOf keyIndexOf
  rw [h]

lemma keyIndexOf_zero {width : ℝ} (hw : 0 < width) : keyIndexOf 0 width = 0 := by
  unfold keyIndexOf
  have hc : clampX 0 width = 0 := by
    rw [clampX_eq_min_max]
    rw [max_self, min_eq_right (le_of_lt hw)]
  rw [hc, zero_div, Int.floor_zero]
  apply min_eq_left
  unfold numKeys START_NOTE END_NOTE
  omega

lemma mapXToFreq_at_zero {width : ℝ} (hw : 0 < width) :
    mapXToFreq 0 width = getFrequency START_NOTE := by
  unfold mapXToFreq
  rw [keyIndexOf_zero hw]
  have ht : xInKeyOf 0 width = 0 := by
    unfold xInKeyOf
    rw [keyIndexOf_zero hw]
    have hc : clampX 0 width = 0 := by
      rw [clampX_eq_min_max, max_self, min_eq_right (le_of_lt hw)]
    rw [hc]
    push_cast
    ring
  rw [ht, Real.rpow_zero, mul_one, add_zero]

/-- C4: mapXToFreq clamps its input to [0, width] (values below 0 behave
like 0, values above width behave like width), the key index never exceeds
numKeys - 1, every output is strictly positive, and at x = 0 with
width = 1000 the output is exactly getFrequency START_NOTE (= 110, the
frequency of note 25). -/
theorem mapXToFreq_clamp_spec :
    (∀ width x : ℝ, 0 < width → x < 0 → mapXToFreq x width = mapXToFreq 0 width) ∧
    (∀ width x : ℝ, 0 < width → width < x →
      mapXToFreq x width = mapXToFreq width width) ∧
    (∀ width x : ℝ, keyIndexOf x width ≤ numKeys - 1) ∧
    (∀ width x : ℝ, 0 < width → 0 < mapXToFreq x width) ∧
    mapXToFreq 0 1000 = getFrequency START_NOTE := by
  refine ⟨?_, ?_, ?_, ?_, ?_⟩
  · intro width x hw hx
    apply mapXToFreq_congr_clamp
    rw [clampX_eq_min_max, clampX_eq_min_max,
      max_eq_right (le_of_lt hx), max_self]
  · intro width x hw hx
    apply mapXToFreq_congr_clamp
    rw [clampX_eq_min_max, clampX_eq_min_max,
      max_eq_left (le_of_lt (lt_trans hw hx)),
      max_eq_left (le_of_lt hw),
      min_eq_left (le_of_lt hx), min_self]
  · intro width x
    exact keyIndexOf_le x width
  · intro width x hw
    unfold mapXToFreq
    have hpos := getFrequency_pos (n := START_NOTE + keyIndexOf x width)
      (note_ge hw x)
    have hq : 0 < getFrequency (START_NOTE + keyIndexOf x width + 1) /
        getFrequency (START_NOTE + keyIndexOf x width) :=
      lt_trans zero_lt_one (ratio_gt_one (note_ge hw x))
    exact mul_pos hpos (Real.rpow_pos_of_pos hq _)
  · exact mapXToFreq_at_zero (by norm_num)

/-- Witness for C4 at width = 1000 and x = -5 (below-range input) and
x = 2000 (above-range input). -/
theorem mapXToFreq_clamp_spec_witness :
    (0 : ℝ) < 1000 ∧ (-5 : ℝ) < 0 ∧ (1000 : ℝ) < 2000 ∧
    mapXToFreq (-5) 1000 = mapXToFreq 0 1000 ∧
    mapXToFreq 2000 1000 = mapXToFreq 1000 1000 ∧
    0 < mapXToFreq 500 1000 :=
  ⟨by norm_num, by norm_num, by norm_num,
    mapXToFreq_clamp_spec.1 1000 (-5) (by norm_num) (by norm_num),
    mapXToFreq_clamp_spec.2.1 1000 2000 (by norm_num) (by norm_num),
    mapXToFreq_clamp_spec.2.2.2.1 1000 500 (by norm_num)⟩

/-- C7: the volume map sends y = 0 to the maximal volume 0.25, y = height to
0, is monotonically non-increasing in y, and always lies in [0, 0.25]. -/
theorem getVolumeFromY_spec (height : ℝ) (hh : 0 < height) :
    getVolumeFromY 0 height = 0.25 ∧
    getVolumeFromY height height = 0 ∧
    (∀ y1 y2 : ℝ, y1 ≤ y2 → getVolumeFromY y2 height ≤ getVolumeFromY y1 height) ∧
    ∀ y : ℝ, 0 ≤ getVolumeFromY y height ∧ getVolumeFromY y height ≤ 0.25 := by
  have hne : height ≠ 0 := ne_of_gt hh
  refine ⟨?_, ?_, ?_, ?_⟩
  · simp only [getVolumeFromY]
    rw [zero_div, max_self, min_eq_left (by norm_num : (0:ℝ) ≤ 1)]
    norm_num
  · simp only [getVolumeFromY]
    rw [div_self hne, max_eq_left (by norm_num : (0:ℝ) ≤ 1), min_self]
    norm_num
  · intro y1 y2 h
    simp only [getVolumeFromY]
    have hdiv : y1 / height ≤ y2 / height :=
      div_le_div_of_nonneg_right h (le_of_lt hh)
    have hcl : min (max (y1 / height) 0) 1 ≤ min (max (y2 / height) 0) 1 :=
      min_le_min (max_le_max hdiv le_rfl) le_rfl
    nlinarith
  · intro y
    simp only [getVolumeFromY]
    have h0 : (0:ℝ) ≤ max (y / height) 0 := le_max_right _ _
    have h1 : min (max (y / height) 0) 1 ≤ 1 := min_le_right _ _
    have h2 : (0:ℝ) ≤ min (max (y / height) 0) 1 := le_min h0 (by norm_num)
    constructor <;> nlinarith

/-- Witness for C7 at height = 100 and y values 0, 100, 30, 60. -/
theorem getVolumeFromY_spec_witness :
    (0 : ℝ) < 100 ∧ (30 : ℝ) ≤ 60 ∧
    getVolumeFromY 0 100 = 0.25 ∧ getVolumeFromY 100 100 = 0 ∧
    getVolumeFromY 60 100 ≤ getVolumeFromY 30 100 :=
  ⟨by norm_num, by norm_num,
    (getVolumeFromY_spec 100 (by norm_num)).1,
    (getVolumeFromY_spec 100 (by norm_num)).2.1,
    (getVolumeFromY_spec 100 (by norm_num)).2.2.1 30 60 (by norm_num)⟩

lemma collectHands_characterization (hands : List Hand) :
    collectHands hands =
      ((hands.filter (fun h => decide (12 < h.keypoints.length) &&
          decide (h.handedness = Handedness.right))).map handTip,
       (hands.filter (fun h => decide (12 < h.keypoints.length) &&
          decide (h.handedness = Handedness.left))).map handTip) := by
  induction hands with
  | nil => rfl
  | cons h rest ih =>
      simp only [collectHands, ih, List.filter_cons]
      rcases Nat.lt_or_ge 12 h.keypoints.length with hlen | hlen
      · cases hh : h.handedness <;>
          simp [hlen, hh, List.filter_cons, List.map_cons]
      · simp [Nat.not_lt.mpr hlen]

/-- C5: the input tracker discards any hand whose keypoint list does not
contain index 12, swaps the detector handedness relative to the physical
side (label Right feeds the left-hand list, label Left the right-hand
list), keeps arrival order, and truncates each side to the first 3 entries,
so no frame ever produces more than 3 tracked points per side. -/
theorem runDetection_tracking_spec (hands : List Hand) :
    trackLeftHands hands =
      ((hands.filter (fun h => decide (12 < h.keypoints.length) &&
          decide (h.handedness = Handedness.right))).map handTip).take 3 ∧
    trackRightHands hands =
      ((hands.filter (fun h => decide (12 < h.keypoints.length) &&
          decide (h.handedness = Handedness.left))).map handTip).take 3 ∧
    (trackLeftHands hands).length ≤ 3 ∧
    (trackRightHands hands).length ≤ 3 := by
  refine ⟨?_, ?_, ?_, ?_⟩
  · unfold trackLeftHands
    rw [collectHands_characterization]
  · unfold trackRightHands
    rw [collectHands_characterization]
  · unfold trackLeftHands
    exact List.length_take_le 3 _
  · unfold trackRightHands
    exact List.length_take_le 3 _

lemma reconcileSlot_state (c : Ctx) (fOfX vOfY : ℝ → ℝ)
    (slot : Option Voice) (pt : Option HandPoint) :
    (reconcileSlot (some c) fOfX vOfY slot pt).1 =
      pt.map fun p => ⟨fOfX p.x, vOfY p.y⟩ := by
  cases pt <;> cases slot <;> rfl

lemma reconcileSlot_no_create (c : Ctx) (fOfX vOfY : ℝ → ℝ)
    (pt : Option HandPoint) :
    Cmd.createOscillator ∉
      (reconcileSlot (some c) fOfX vOfY
        (pt.map fun p => ⟨fOfX p.x, vOfY p.y⟩) pt).2 := by
  cases pt <;>
    simp [reconcileSlot, updateAudioNode, stopAudioNode, Option.map]

lemma reconcileHands_state (c : Ctx) (fOfX vOfY : ℝ → ℝ)
    (hands : List HandPoint) (ss : HandSlots) :
    (reconcileHands true true (some c) fOfX vOfY hands ss).1 =
      ⟨hands[0]?.map fun p => ⟨fOfX p.x, vOfY p.y⟩,
       hands[1]?.map fun p => ⟨fOfX p.x, vOfY p.y⟩,
       hands[2]?.map fun p => ⟨fOfX p.x, vOfY p.y⟩⟩ := by
  simp only [reconcileHands, Bool.and_self, if_true]
  rw [HandSlots.mk.injEq]
  exact ⟨reconcileSlot_state c fOfX vOfY ss.s0 _,
    reconcileSlot_state c fOfX vOfY ss.s1 _,
    reconcileSlot_state c fOfX vOfY ss.s2 _⟩

/-- C2: with a running audio context, the per-frame reconcile effect is
idempotent: a second run on the identical hand points leaves every slot in
the same state (occupied slots Sounding with the same target frequency and
amplitude derived from the point), and the second run never issues a
createOscillator call (occupied slots only get parameter ramps). -/
theorem reconcile_idempotent (c : Ctx) (fOfX vOfY : ℝ → ℝ)
    (hands : List HandPoint) (ss : HandSlots) :
    (reconcileHands true true (some c) fOfX vOfY hands ss).1 =
      ⟨hands[0]?.map fun p => ⟨fOfX p.x, vOfY p.y⟩,
       hands[1]?.map fun p => ⟨fOfX p.x, vOfY p.y⟩,
       hands[2]?.map fun p => ⟨fOfX p.x, vOfY p.y⟩⟩ ∧
    (reconcileHands true true (some c) fOfX vOfY hands
        (reconcileHands true true (some c) fOfX vOfY hands ss).1).1 =
      (reconcileHands true true (some c) fOfX vOfY hands ss).1 ∧
    Cmd.createOscillator ∉
      (reconcileHands true true (some c) fOfX vOfY hands
        (reconcileHands true true (some c) fOfX vOfY hands ss).1).2 := by
  refine ⟨reconcileHands_state c fOfX vOfY hands ss, ?_, ?_⟩
  · rw [reconcileHands_state, reconcileHands_state]
  · rw [reconcileHands_state]
    simp only [reconcileHands, Bool.and_self, if_true, List.mem_append]
    push_neg
    exact ⟨⟨reconcileSlot_no_create c fOfX vOfY _,
      reconcileSlot_no_create c fOfX vOfY _⟩,
      reconcileSlot_no_create c fOfX vOfY _⟩

/-- C6: the synchronous command trace of stopAudioNode on a sounding slot:
it cancels scheduled gain values, ramps gain to 0 at t + 0.15, schedules the
oscillator stop at t + 0.2, and then disconnects both nodes immediately in
the same call (before the scheduled stop completes); stop on an empty slot
is a no-op. -/
theorem stopAudioNode_trace :
    stopAudioNode (some ⟨0⟩) (some ⟨440, 0.25⟩) =
      (none,
        [Cmd.cancelScheduledGain 0,
         Cmd.linearRampGain ((0 : ℝ) + 0.15) 0,
         Cmd.oscStop ((0 : ℝ) + 0.2),
         Cmd.disconnectOsc, Cmd.disconnectGain]) ∧
    ∀ ctx : Option Ctx, stopAudioNode ctx none = (none, []) := by
  refine ⟨rfl, ?_⟩
  intro ctx
  cases ctx <;> rfl

/-- C8: every voice operation invoked with the audio context absent (not
running) is inert: it leaves the slot state unchanged and issues no audio
command; handleMouseEnter before isReady and the reconcile effect before
isReady are likewise inert; and once the context is running the same start
call succeeds, creating the oscillator for the slot. -/
theorem audio_ops_inert_before_running :
    (∀ (slot : Option Voice) (freq vol : ℝ),
      startAudioNode none slot freq vol = (slot, [])) ∧
    (∀ (slot : Option Voice) (freq vol : ℝ),
      updateAudioNode none slot freq vol = (slot, [])) ∧
    (∀ slot : Option Voice, stopAudioNode none slot = (slot, [])) ∧
    (∀ (ctx : Option Ctx) (fOfX vOfY : ℝ → ℝ) (x y : ℝ) (slot : Option Voice),
      handleMouseEnter false ctx fOfX vOfY x y slot = (slot, [])) ∧
    (∀ (canvas : Bool) (ctx : Option Ctx) (fOfX vOfY : ℝ → ℝ)
        (hands : List HandPoint) (ss : HandSlots),
      reconcileHands false canvas ctx fOfX vOfY hands ss = (ss, [])) ∧
    ∀ (c : Ctx) (freq vol : ℝ),
      (startAudioNode (some c) none freq vol).1 = some ⟨freq, vol⟩ ∧
      Cmd.createOscillator ∈ (startAudioNode (some c) none freq vol).2 := by
  refine ⟨?_, ?_, ?_, ?_, ?_, ?_⟩
  · intro slot freq vol
    cases slot <;> rfl
  · intro slot freq vol
    cases slot <;> rfl
  · intro slot
    cases slot <;> rfl
  · intro ctx fOfX vOfY x y slot
    rfl
  · intro canvas ctx fOfX vOfY hands ss
    rfl
  · intro c freq vol
    exact ⟨rfl, by simp [startAudioNode]⟩

/-- C9: a slot whose oscillator ref is already set never gets a second
oscillator or gain node: tsx startAudioNode returns with no effect and no
command, and audio.ts startOscillator only re-sets the frequency of the
existing oscillator (no create commands, gain untouched); hence the seven
fixed slot refs bound the number of live voices by 7. -/
theorem one_oscillator_per_slot :
    (∀ (ctx : Option Ctx) (v : Voice) (freq vol : ℝ),
      startAudioNode ctx (some v) freq vol = (some v, [])) ∧
    (∀ (c : Ctx) (v : Voice) (f0 : ℝ),
      (startOscillator c (some v) f0).1 = some ⟨f0, v.amp⟩ ∧
      (startOscillator c (some v) f0).2 = [Cmd.setFreqAtTime c.currentTime f0] ∧
      Cmd.createOscillator ∉ (startOscillator c (some v) f0).2 ∧
      Cmd.createGain ∉ (startOscillator c (some v) f0).2) ∧
    ∀ s : AppSlots, liveVoices s ≤ 7 := by
  refine ⟨?_, ?_, ?_⟩
  · intro ctx v freq vol
    cases ctx <;> rfl
  · intro c v f0
    refine ⟨rfl, rfl, ?_, ?_⟩ <;> simp [startOscillator]
  · intro s
    exact List.length_filter_le _ _

end Theramin
